import Mathlib

/-!
Shallow embedding of the tennis round-robin match tracker (`src/App.tsx`,
two revisions in the file: a single-league revision and a richer two-league
revision with remote sync).  Pure functions of the source are translated to
Lean functions; JavaScript objects (`Record<string, boolean>`) are modelled
as ordered association lists with unique keys, matching JS object insertion
order and key-overwrite semantics; React `setState` functional updates are
modelled as explicit state-passing functions.
-/

/-! ### Definitions: fixture generator (both revisions) -/

/-- Source `Match` (`App.tsx`): `{ id: string; pairA: number; pairB: number }`. -/
structure Match where
  id : String
  pairA : Nat
  pairB : Nat
  deriving DecidableEq, Repr

/-- The match-key template literal of the source: `` `${i}-${j}` ``. -/
def matchKey (i j : Nat) : String :=
  toString i ++ "-" ++ toString j

/-- Source `generateMatches` (identical in both revisions): for `i` from 1 to
`pairCount`, for `j` from `i+1` to `pairCount`, push
`{id: "i-j", pairA: i, pairB: j}`.  The inner loop body runs for the
`pairCount - i` values `j = i+1, …, pairCount`. -/
def generateMatches (pairCount : Nat) : List Match :=
  (List.range' 1 pairCount).flatMap fun i =>
    (List.range' (i + 1) (pairCount - i)).map fun j =>
      { id := matchKey i j, pairA := i, pairB := j }

/-- Decimal digit list of `n`, least significant first, with `0` written as
the single digit `0` (mirroring `Nat.repr`, which prints `0` as `"0"`). -/
def reprDigits (n : Nat) : List Nat :=
  if n = 0 then [0] else Nat.digits 10 n

/-! ### Definitions: league state model (richer revision)

A JavaScript object `Record<string, boolean>` is modelled as an ordered
association list with unique keys (`CompletedMap`); `objGet` is property
read (`none` for `undefined`), `objSet` is the spread-override
`{...m, [k]: v}` (an existing key keeps its position and gets the new
value, a new key is appended), which also matches plain assignment
`m[k] = v`.  JS numeric state that the handlers always keep as an integer
`≥ 2` is a `Nat`; raw finite JS numbers appearing as inputs are rationals.
-/

/-- Source `LeagueId`: `'A' | 'B'`. -/
inductive LeagueId where
  | A | B
  deriving DecidableEq, Repr

/-- `Record<string, boolean>` as an ordered association list. -/
abbrev CompletedMap := List (String × Bool)

/-- JS property read `m[k]`; `none` models `undefined`. -/
def objGet : CompletedMap → String → Option Bool
  | [], _ => none
  | (k', v) :: rest, k => if k' = k then some v else objGet rest k

/-- Truthiness of the JS read `m[k]` (`undefined` and `false` are falsy). -/
def objGetD (m : CompletedMap) (k : String) : Bool :=
  (objGet m k).getD false

/-- JS object write `{...m, [k]: v}` / `m[k] = v`. -/
def objSet : CompletedMap → String → Bool → CompletedMap
  | [], k, v => [(k, v)]
  | (k', v') :: rest, k, v =>
    if k' = k then (k', v) :: rest else (k', v') :: objSet rest k v

/-- Source `completedIds` (richer revision):
`Object.keys(currentLeague.completedMap).filter(id => completedMap[id])`. -/
def trueKeys (m : CompletedMap) : List String :=
  (m.filter (·.2)).map (·.1)

/-- Source `LeagueState`: `{ pairCount: number; completedMap: Record<string, boolean> }`. -/
structure LeagueState where
  pairCount : Nat
  completedMap : CompletedMap
  deriving DecidableEq, Repr

/-- Source `defaultLeagueState`: `{ pairCount: 4, completedMap: {} }`. -/
def defaultLeagueState : LeagueState :=
  { pairCount := 4, completedMap := [] }

/-- The `leagues` React state: `Record<LeagueId, LeagueState>`. -/
abbrev Leagues := LeagueId → LeagueState

/-- Source `completedCount`: `completedIds.length`. -/
def completedCount (st : LeagueState) : Nat :=
  (trueKeys st.completedMap).length

/-- Source `canEditPairCount`: `completedCount === 0`. -/
def canEditPairCount (st : LeagueState) : Bool :=
  completedCount st == 0

/-- The current fixture id list: `matches.map((match) => match.id)`. -/
def matchIdsOf (n : Nat) : List String :=
  (generateMatches n).map Match.id

/-- The `setLeagues` functional update inside `handleToggle`:
`{...prev, [activeLeague]: {...current, completedMap: {...current.completedMap, [id]: !current.completedMap[id]}}}`. -/
def handleToggleUpdate (prev : Leagues) (active : LeagueId) (id : String) : Leagues :=
  Function.update prev active
    { prev active with
      completedMap :=
        objSet (prev active).completedMap id (!objGetD (prev active).completedMap id) }

/-- The completion-map part of `handleToggle`. -/
def toggleMap (m : CompletedMap) (id : String) : CompletedMap :=
  objSet m id (!objGetD m id)

/-- The `setLeagues` functional update inside `handleResetLeague`:
`completedMap: {}` for the active league. -/
def handleResetLeagueUpdate (prev : Leagues) (active : LeagueId) : Leagues :=
  Function.update prev active { prev active with completedMap := [] }

/-- `Math.max(2, Math.floor(parsed))` of `handlePairCountChange` (both
revisions), on a finite JS number modelled as a rational. -/
def boundedPairCount (v : ℚ) : Nat :=
  (max 2 ⌊v⌋).toNat

/-- The `setLeagues` functional update inside `handlePairCountChange` for a
finite numeric input (a non-finite input returns early, changing nothing). -/
def handlePairCountChangeUpdate (prev : Leagues) (active : LeagueId) (v : ℚ) : Leagues :=
  Function.update prev active { prev active with pairCount := boundedPairCount v }

/-- The `setLeagues` functional update inside `handleStepperChange`:
`pairCount: Math.max(2, prev[activeLeague].pairCount + delta)`. -/
def handleStepperChangeUpdate (prev : Leagues) (active : LeagueId) (delta : Int) : Leagues :=
  Function.update prev active
    { prev active with
      pairCount := (max 2 ((prev active).pairCount + delta)).toNat }

/-- The pair-count `<input>` as wired in the view: it carries
`disabled={!canEditPairCount}`, so a change event reaches
`handlePairCountChange` only when `canEditPairCount` holds. -/
def pairCountInputEvent (prev : Leagues) (active : LeagueId) (v : ℚ) : Leagues :=
  if canEditPairCount (prev active) then handlePairCountChangeUpdate prev active v else prev

/-- The stepper `+`/`−` buttons as wired in the view: both carry
`disabled={!canEditPairCount}`. -/
def stepperButtonEvent (prev : Leagues) (active : LeagueId) (delta : Int) : Leagues :=
  if canEditPairCount (prev active) then handleStepperChangeUpdate prev active delta else prev

/-- The pruning effect (richer revision): with
`matchIds = new Set(matches.map(m => m.id))`, the active league's map
becomes `Object.fromEntries(Object.entries(completedMap).filter(([id]) => matchIds.has(id)))`. -/
def pruneCompletedMap (m : CompletedMap) (n : Nat) : CompletedMap :=
  m.filter (fun p => decide (p.1 ∈ matchIdsOf n))

/-- `loadFromSupabase`'s completion-map rebuild: starts from `{}` and, for
each fetched row in order, skips keys outside the allowed id set
(`generateMatches` of the league's current pair count) and otherwise writes
`completedMap[row.match_key] = !!row.completed`. -/
def loadRowsMerge (n : Nat) (rows : List (String × Bool)) : CompletedMap :=
  rows.foldl
    (fun acc row => if row.1 ∈ matchIdsOf n then objSet acc row.1 row.2 else acc) []

/-- The realtime-subscription handler at completion-map level: the row is
ignored when its `match_key` is not an allowed id, otherwise
`{...completedMap, [row.match_key]: !!row.completed}` is merged. -/
def subscriptionMerge (n : Nat) (prev : CompletedMap) (row : String × Bool) : CompletedMap :=
  if row.1 ∈ matchIdsOf n then objSet prev row.1 row.2 else prev

/-- JS `Math.round` (round half toward positive infinity), with JS number
arithmetic idealized as exact rational arithmetic. -/
def jsRound (q : ℚ) : Int := ⌊q + 1/2⌋

/-- Source progress computation:
`totalMatches === 0 ? 0 : Math.round((completedCount / totalMatches) * 100)`. -/
def progressPercent (n : Nat) (m : CompletedMap) : Int :=
  if (generateMatches n).length = 0 then 0
  else jsRound (((trueKeys m).length : ℚ) / ((generateMatches n).length : ℚ) * 100)

/-! ### Definitions: persistence loader (`loadLeagueState`, `loadLegacyState`)

The loader works on untyped parsed JSON (the TS casts
`JSON.parse(stored) as LeagueState` are unchecked), so parsed values are
modelled by the `Js` inductive and a stored completion map keeps raw `Js`
values.  A storage slot is `missing` (`getItem` gave `null` or a falsy
string), `corrupt` (`JSON.parse` throws, caught by the `try`/`catch`), or a
parsed value.  All loader functions are total: no branch can throw.
-/

/-- A parsed JSON value (the fragment of JS values relevant here). -/
inductive Js where
  | num (n : Int)
  | str (s : String)
  | bool (b : Bool)
  | null
  | arr (elems : List Js)
  | obj (fields : List (String × Js))

/-- A local-storage slot as seen through `getItem` plus `JSON.parse`. -/
inductive StoredSlot where
  | missing
  | corrupt
  | val (j : Js)

/-- JS truthiness of a parsed value (the `!parsed` check). -/
def Js.truthy : Js → Bool
  | .num n => n != 0
  | .str s => s != ""
  | .bool b => b
  | .null => false
  | .arr _ => true
  | .obj _ => true

/-- JS property access `parsed.field` (`undefined` on non-objects). -/
def Js.getField : Js → String → Option Js
  | .obj fs, k => (fs.find? (fun p => p.1 == k)).map (·.2)
  | _, _ => none

/-- JS `typeof x === 'object'` for parsed JSON values (objects, arrays and
`null` all have typeof `'object'`). -/
def Js.typeofObject : Js → Bool
  | .obj _ => true
  | .arr _ => true
  | .null => true
  | _ => false

/-- The entries of a parsed value used as a record (arrays expose their
index keys, other primitives none). -/
def Js.recordEntries : Js → List (String × Js)
  | .obj fs => fs
  | .arr xs => xs.enum.map fun p => (toString p.1, p.2)
  | _ => []

/-- The check `typeof parsed.pairCount === 'number'` (false when the field
is absent, i.e. `undefined`). -/
def isNumField (j : Js) (k : String) : Bool :=
  match j.getField k with
  | some (.num _) => true
  | _ => false

/-- A league state as produced by the persistence loader: the stored
`completedMap` is kept as-is after the `typeof === 'object'` check, so its
values are raw parsed JSON. -/
structure LoadedLeagueState where
  pairCount : Int
  completedMap : List (String × Js)

/-- `defaultLeagueState` as seen at the untyped persistence level. -/
def defaultLoadedState : LoadedLeagueState :=
  { pairCount := 4, completedMap := [] }

/-- Source `LegacyStoredState`: `{ pairCount, completedIds }`. -/
structure LegacyStored where
  pairCount : Int
  completedIds : List String

/-- Source `loadLegacyState`: `null` for a missing or unparseable legacy
slot and for a parsed value failing `!parsed` or the numeric-`pairCount`
check; `completedIds` keeps only strings
(`filter((id) => typeof id === 'string')`). -/
def loadLegacyState : StoredSlot → Option LegacyStored
  | .missing => none
  | .corrupt => none
  | .val j =>
    if j.truthy = false then none
    else
      match j.getField "pairCount" with
      | some (.num n) =>
        some
          { pairCount := n,
            completedIds :=
              match j.getField "completedIds" with
              | some (.arr xs) =>
                xs.filterMap fun x => match x with | .str s => some s | _ => none
              | _ => [] }
      | _ => none

/-- The legacy-shape migration inside `loadLeagueState`:
`Object.fromEntries(legacy.completedIds.map((id) => [id, true]))`. -/
def migrateLegacy (legacy : LegacyStored) : LoadedLeagueState :=
  { pairCount := legacy.pairCount,
    completedMap := legacy.completedIds.map fun id => (id, Js.bool true) }

/-- Source `loadLeagueState`: a missing per-league slot falls back to the
legacy migration for league `A` and to the default otherwise; an
unparseable slot or one failing the `!parsed` / numeric-`pairCount` checks
gives the default; otherwise `pairCount` is taken as-is and `completedMap`
is the stored object when truthy and of typeof `'object'`, else `{}`. -/
def loadLeagueState (leagueId : LeagueId) (slot legacySlot : StoredSlot) : LoadedLeagueState :=
  match slot with
  | .missing =>
    if leagueId = .A then
      match loadLegacyState legacySlot with
      | some legacy => migrateLegacy legacy
      | none => defaultLoadedState
    else defaultLoadedState
  | .corrupt => defaultLoadedState
  | .val j =>
    if j.truthy = false then defaultLoadedState
    else
      match j.getField "pairCount" with
      | some (.num n) =>
        { pairCount := n,
          completedMap :=
            match j.getField "completedMap" with
            | some cm => if cm.truthy && cm.typeofObject then cm.recordEntries else []
            | none => [] }
      | _ => defaultLoadedState

/-! ### Definitions: circle-method generator variant

Modelled from the spec: the circle-method round-robin generator variant is
described in the spec (§2, §4.1) but is not part of `src/` — only the
combinatorial variant is.  The definitions below transcribe the spec's
recipe: seat participants `1..n` (plus the synthetic placeholder `n+1`
when `n` is odd) in a sequence of even size; run `size - 1` rounds; in
each round pair seat `i` with seat `size-1-i` for `i` in `0 .. size/2`
(exclusive, so seats pair off disjointly); emit key
`"{min(a,b)}-{max(a,b)}"` regardless of seat order; drop pairings that
involve the placeholder; between rounds hold the first seat fixed and
rotate the remaining seats by one position, the element at the end moving
to the front.
-/

/-- Modelled from the spec: "take the remaining seats as a sequence and
rotate them by one position (the element at the end moves to the front of
the remaining sequence, all others shift right by one)". -/
def rotateOnce (l : List Nat) : List Nat :=
  match l.getLast? with
  | none => []
  | some x => x :: l.dropLast

/-- Modelled from the spec: one round-to-round seating change — "hold the
first seat fixed" and rotate the remaining seats. -/
def advanceSeats : List Nat → List Nat
  | [] => []
  | first :: rest => first :: rotateOnce rest

/-- Modelled from the spec: the seat-level pairs of one round — "pair
position `i` with position `size-1-i`". -/
def roundPairs (seats : List Nat) : List (Nat × Nat) :=
  (List.range (seats.length / 2)).map fun i =>
    (seats.getD i 0, seats.getD (seats.length - 1 - i) 0)

/-- The seat-level pair lists of `k` successive rounds. -/
def roundsFrom (seats : List Nat) : Nat → List (List (Nat × Nat))
  | 0 => []
  | k + 1 => roundPairs seats :: roundsFrom (advanceSeats seats) k

/-- All seat-level pairs of a full even-size schedule (`m` seats,
`m - 1` rounds), rounds in emission order. -/
def evenCircle (m : Nat) : List (Nat × Nat) :=
  (roundsFrom (List.range' 1 m) (m - 1)).flatten

/-- Modelled from the spec: the working seat count — `n+1` (even) when `n`
is odd, else `n`. -/
def circleSize (n : Nat) : Nat := if n % 2 = 1 then n + 1 else n

/-- Modelled from the spec: the synthetic placeholder ("bye") seat value
for odd `n`; `0` (never a seat value) when no placeholder is present. -/
def circleBye (n : Nat) : Nat := if n % 2 = 1 then n + 1 else 0

/-- The emitted seat-level pairs: placeholder pairings are dropped. -/
def circleKept (n : Nat) : List (Nat × Nat) :=
  (evenCircle (circleSize n)).filter fun p => decide (p.1 ≠ circleBye n ∧ p.2 ≠ circleBye n)

/-- Modelled from the spec: the circle-method generator variant — each kept
pair is emitted with the ordering-normalized key
`"{min(a,b)}-{max(a,b)}"`. -/
def circleMatches (n : Nat) : List Match :=
  (circleKept n).map fun p =>
    { id := matchKey (min p.1 p.2) (max p.1 p.2),
      pairA := min p.1 p.2, pairB := max p.1 p.2 }

/-- Closed form of the value seated at position `k` after `r` rounds: the
anchor `1` at position 0, and `2 + ((k - 1 + (m-2)·r) mod (m-1))`
elsewhere. -/
def seatVal (m r k : Nat) : Nat :=
  if k = 0 then 1 else 2 + ((k - 1 + (m - 2) * r) % (m - 1))

/-- The seat-level pair emitted in round `r` at index `i`. -/
def pairAt (m r i : Nat) : Nat × Nat := (seatVal m r i, seatVal m r (m - 1 - i))

/-- Ordering normalization of a pair: `(min, max)`. -/
def np (p : Nat × Nat) : Nat × Nat := (min p.1 p.2, max p.1 p.2)

/-- The participant pair carried by a match. -/
def combPair (x : Match) : Nat × Nat := (x.pairA, x.pairB)

/-! ### Theorems: decimal representation and key injectivity -/

theorem toDigitsCore_eq_digits (fuel : Nat) :
    ∀ n ds, n < fuel → 0 < n →
      Nat.toDigitsCore 10 fuel n ds = ((Nat.digits 10 n).map Nat.digitChar).reverse ++ ds := by
  induction fuel with
  | zero => intro n ds h hn; omega
  | succ fuel ih =>
    intro n ds h hn
    have hunf : Nat.toDigitsCore 10 (fuel+1) n ds =
        if n / 10 = 0 then Nat.digitChar (n % 10) :: ds
        else Nat.toDigitsCore 10 fuel (n / 10) (Nat.digitChar (n % 10) :: ds) := by
      simp [Nat.toDigitsCore]
    rw [hunf, Nat.digits_def' (b := 10) (by norm_num) hn]
    by_cases h0 : n / 10 = 0
    · simp [h0]
    · rw [if_neg h0, ih (n / 10) _ (by have hlt : n / 10 < n := Nat.div_lt_self hn (by norm_num); omega)
        (Nat.pos_of_ne_zero h0)]
      simp

theorem repr_eq_reprDigits (n : Nat) :
    Nat.repr n = ((reprDigits n).map Nat.digitChar).reverse.asString := by
  by_cases h : n = 0
  · subst h; rfl
  · show (Nat.toDigits 10 n).asString = _
    unfold Nat.toDigits
    rw [toDigitsCore_eq_digits (n+1) n [] (by omega) (Nat.pos_of_ne_zero h)]
    simp [reprDigits, h]

theorem ofDigits_reprDigits (n : Nat) : Nat.ofDigits 10 (reprDigits n) = n := by
  by_cases h : n = 0
  · subst h; simp [reprDigits, Nat.ofDigits]
  · simp [reprDigits, h, Nat.ofDigits_digits]

theorem reprDigits_lt (n : Nat) : ∀ d ∈ reprDigits n, d < 10 := by
  intro d hd
  by_cases h : n = 0
  · subst h; simp [reprDigits] at hd; omega
  · exact Nat.digits_lt_base (by norm_num) (by simpa [reprDigits, h] using hd)

theorem digitChar_injOn : ∀ a < 10, ∀ b < 10, Nat.digitChar a = Nat.digitChar b → a = b := by
  decide

theorem map_digitChar_inj : ∀ l1 l2 : List Nat, (∀ x ∈ l1, x < 10) → (∀ x ∈ l2, x < 10) →
    l1.map Nat.digitChar = l2.map Nat.digitChar → l1 = l2 := by
  intro l1
  induction l1 with
  | nil => intro l2 _ _ h; cases l2 <;> simp_all
  | cons a t ih =>
    intro l2 h1 h2 h
    cases l2 with
    | nil => simp at h
    | cons b t2 =>
      simp only [List.map_cons, List.cons.injEq] at h
      have hab := digitChar_injOn a (h1 a (by simp)) b (h2 b (by simp)) h.1
      subst hab
      rw [ih t2 (fun x hx => h1 x (by simp [hx])) (fun x hx => h2 x (by simp [hx])) h.2]

theorem repr_inj (a b : Nat) (h : Nat.repr a = Nat.repr b) : a = b := by
  rw [repr_eq_reprDigits, repr_eq_reprDigits] at h
  have hdata : ((reprDigits a).map Nat.digitChar).reverse
      = ((reprDigits b).map Nat.digitChar).reverse := congrArg String.data h
  have hmap := List.reverse_injective hdata
  have hdig := map_digitChar_inj _ _ (reprDigits_lt a) (reprDigits_lt b) hmap
  calc a = Nat.ofDigits 10 (reprDigits a) := (ofDigits_reprDigits a).symm
    _ = Nat.ofDigits 10 (reprDigits b) := by rw [hdig]
    _ = b := ofDigits_reprDigits b

theorem digitChar_ne_dash : ∀ a < 10, Nat.digitChar a ≠ '-' := by decide

theorem dash_not_mem_reprData (n : Nat) : '-' ∉ (Nat.repr n).data := by
  rw [repr_eq_reprDigits]
  show '-' ∉ ((reprDigits n).map Nat.digitChar).reverse
  intro hmem
  rw [List.mem_reverse, List.mem_map] at hmem
  obtain ⟨d, hd, heq⟩ := hmem
  exact digitChar_ne_dash d (reprDigits_lt n d hd) heq

theorem append_dash_inj : ∀ l1 l2 r1 r2 : List Char, '-' ∉ l1 → '-' ∉ l2 →
    l1 ++ '-' :: r1 = l2 ++ '-' :: r2 → l1 = l2 ∧ r1 = r2 := by
  intro l1
  induction l1 with
  | nil =>
    intro l2 r1 r2 _ h2 h
    cases l2 with
    | nil => simpa using h
    | cons b t =>
      simp only [List.nil_append, List.cons_append, List.cons.injEq] at h
      exact absurd (by simp [← h.1]) h2
  | cons a t ih =>
    intro l2 r1 r2 h1 h2 h
    cases l2 with
    | nil =>
      simp only [List.nil_append, List.cons_append, List.cons.injEq] at h
      exact absurd (by simp [h.1]) h1
    | cons b t2 =>
      simp only [List.cons_append, List.cons.injEq] at h
      obtain ⟨hab, hrest⟩ := h
      obtain ⟨hts, hrs⟩ := ih t2 r1 r2 (fun hm => h1 (by simp [hm]))
        (fun hm => h2 (by simp [hm])) hrest
      exact ⟨by rw [hab, hts], hrs⟩

/-- The match-key template is injective: equal keys give equal pair numbers. -/
theorem matchKey_inj (a b c d : Nat) (h : matchKey a b = matchKey c d) : a = c ∧ b = d := by
  have hdata : (Nat.repr a).data ++ '-' :: (Nat.repr b).data
      = (Nat.repr c).data ++ '-' :: (Nat.repr d).data := by
    have := congrArg String.data h
    simpa [matchKey, String.data_append] using this
  obtain ⟨h1, h2⟩ := append_dash_inj _ _ _ _ (dash_not_mem_reprData a)
    (dash_not_mem_reprData c) hdata
  exact ⟨repr_inj a c (String.ext h1), repr_inj b d (String.ext h2)⟩

/-! ### Theorems: the combinatorial generator -/

theorem mem_generateMatches (n : Nat) (x : Match) :
    x ∈ generateMatches n ↔
      ∃ i j, 1 ≤ i ∧ i < j ∧ j ≤ n ∧ x = { id := matchKey i j, pairA := i, pairB := j } := by
  simp only [generateMatches, List.mem_flatMap, List.mem_map, List.mem_range'_1]
  constructor
  · rintro ⟨i, ⟨hi1, hi2⟩, j, ⟨hj1, hj2⟩, rfl⟩
    exact ⟨i, j, hi1, by omega, by omega, rfl⟩
  · rintro ⟨i, j, h1, h2, h3, rfl⟩
    exact ⟨i, ⟨h1, by omega⟩, j, ⟨by omega, by omega⟩, rfl⟩

theorem sum_map_range (f : Nat → Nat) (n : Nat) :
    ((List.range n).map f).sum = ∑ i ∈ Finset.range n, f i := by
  induction n with
  | zero => simp
  | succ n ih =>
    rw [List.range_succ, List.map_append, List.sum_append, Finset.sum_range_succ, ih]
    simp

theorem length_generateMatches (n : Nat) : (generateMatches n).length = n * (n - 1) / 2 := by
  rw [generateMatches, List.length_flatMap, List.range'_eq_map_range, List.map_map]
  have hcomp :
      ((List.length ∘ fun i =>
          (List.range' (i + 1) (n - i)).map fun j =>
            (⟨matchKey i j, i, j⟩ : Match)) ∘ fun x => 1 + x)
        = fun k => n - (1 + k) := by
    funext k
    simp [List.length_map, List.length_range']
  rw [hcomp, sum_map_range]
  have hcongr : ∀ k ∈ Finset.range n, n - (1 + k) = n - 1 - k := by
    intro k _; omega
  rw [Finset.sum_congr rfl hcongr, Finset.sum_range_reflect (fun i => i) n]
  exact Finset.sum_range_id n

theorem pairwise_lex_generateMatches (n : Nat) :
    List.Pairwise
      (fun x y : Match => x.pairA < y.pairA ∨ (x.pairA = y.pairA ∧ x.pairB < y.pairB))
      (generateMatches n) := by
  rw [generateMatches, List.pairwise_flatMap]
  constructor
  · intro i _
    rw [List.pairwise_map]
    exact (List.pairwise_lt_range' (i+1) (n-i)).imp (fun h => Or.inr ⟨rfl, h⟩)
  · refine (List.pairwise_lt_range' 1 n).imp ?_
    intro a b hab x hx y hy
    simp only [List.mem_map] at hx hy
    obtain ⟨ja, _, rfl⟩ := hx
    obtain ⟨jb, _, rfl⟩ := hy
    exact Or.inl hab

theorem nodup_generateMatches (n : Nat) : (generateMatches n).Nodup := by
  rw [generateMatches, List.nodup_flatMap]
  constructor
  · intro i _
    refine List.Nodup.map_on ?_ (List.nodup_range' (i+1) (n-i))
    intro x _ y _ h
    injection h
  · refine (List.pairwise_lt_range' 1 n).imp ?_
    intro a b hab x hx hy
    simp only [List.mem_map] at hx hy
    obtain ⟨ja, _, rfl⟩ := hx
    obtain ⟨jb, _, heq⟩ := hy
    injection heq with _ h2 _
    omega

theorem nodup_ids_generateMatches (n : Nat) :
    ((generateMatches n).map Match.id).Nodup := by
  refine List.Nodup.map_on ?_ (nodup_generateMatches n)
  intro x hx y hy hid
  rw [mem_generateMatches] at hx hy
  obtain ⟨i, j, _, _, _, rfl⟩ := hx
  obtain ⟨i', j', _, _, _, rfl⟩ := hy
  obtain ⟨rfl, rfl⟩ := matchKey_inj i j i' j' hid
  rfl

/-- C1: for every non-negative pair count `n`, `generateMatches n` returns
exactly `n*(n-1)/2` matches (so the empty list for `n < 2`), in
lexicographic-by-pair order; every match for pair `(i, j)` with
`1 ≤ i < j ≤ n` has id `"{i}-{j}"`, every such pair occurs, and each
distinct pair id appears exactly once. -/
theorem C1_generateMatches_complete_roundRobin (n : Nat) :
    (generateMatches n).length = n * (n - 1) / 2
    ∧ (n < 2 → generateMatches n = [])
    ∧ List.Pairwise
        (fun x y : Match => x.pairA < y.pairA ∨ (x.pairA = y.pairA ∧ x.pairB < y.pairB))
        (generateMatches n)
    ∧ (∀ x ∈ generateMatches n,
        x.id = matchKey x.pairA x.pairB ∧ 1 ≤ x.pairA ∧ x.pairA < x.pairB ∧ x.pairB ≤ n)
    ∧ (∀ i j, 1 ≤ i → i < j → j ≤ n →
        ({ id := matchKey i j, pairA := i, pairB := j } : Match) ∈ generateMatches n)
    ∧ ((generateMatches n).map Match.id).Nodup := by
  refine ⟨length_generateMatches n, ?_, pairwise_lex_generateMatches n, ?_, ?_,
    nodup_ids_generateMatches n⟩
  · intro h
    interval_cases n <;> decide
  · intro x hx
    rw [mem_generateMatches] at hx
    obtain ⟨i, j, h1, h2, h3, rfl⟩ := hx
    exact ⟨rfl, h1, h2, h3⟩
  · intro i j h1 h2 h3
    rw [mem_generateMatches]
    exact ⟨i, j, h1, h2, h3, rfl⟩

/-- Witness for C1 at concrete inputs: `n = 1` gives the empty fixture list
and the pair `(1, 2)` occurs for `n = 4`. -/
theorem C1_generateMatches_complete_roundRobin_witness :
    generateMatches 1 = []
    ∧ ({ id := matchKey 1 2, pairA := 1, pairB := 2 } : Match) ∈ generateMatches 4 :=
  ⟨(C1_generateMatches_complete_roundRobin 1).2.1 (by decide),
   (C1_generateMatches_complete_roundRobin 4).2.2.2.2.1 1 2 (by decide) (by decide) (by decide)⟩

/-! ### Theorems: JS object operations -/

theorem objGet_objSet_same (m : CompletedMap) (k : String) (v : Bool) :
    objGet (objSet m k v) k = some v := by
  induction m with
  | nil => simp [objSet, objGet]
  | cons p rest ih =>
    obtain ⟨k', v'⟩ := p
    by_cases h : k' = k <;> simp [objSet, objGet, h, ih]

theorem objGet_objSet_ne (m : CompletedMap) (k k' : String) (v : Bool) (h : k' ≠ k) :
    objGet (objSet m k v) k' = objGet m k' := by
  induction m with
  | nil => simp [objSet, objGet, Ne.symm h]
  | cons p rest ih =>
    obtain ⟨ka, va⟩ := p
    by_cases hk : ka = k
    · subst hk
      simp [objSet, objGet, Ne.symm h]
    · simp only [objSet, if_neg hk]
      by_cases hk' : ka = k'
      · subst hk'
        simp [objGet]
      · simp [objGet, hk', ih]

theorem objSet_objSet (m : CompletedMap) (k : String) (v w : Bool) :
    objSet (objSet m k v) k w = objSet m k w := by
  induction m with
  | nil => simp [objSet]
  | cons p rest ih =>
    obtain ⟨k', v'⟩ := p
    by_cases h : k' = k <;> simp [objSet, h, ih]

theorem objSet_eq_self (m : CompletedMap) (k : String) (v : Bool)
    (h : objGet m k = some v) : objSet m k v = m := by
  induction m with
  | nil => simp [objGet] at h
  | cons p rest ih =>
    obtain ⟨k', v'⟩ := p
    by_cases hk : k' = k
    · subst hk
      simp [objGet] at h
      simp [objSet, h]
    · simp [objGet, hk] at h
      simp [objSet, hk, ih h]

theorem objSet_of_get_none (m : CompletedMap) (k : String) (v : Bool)
    (h : objGet m k = none) : objSet m k v = m ++ [(k, v)] := by
  induction m with
  | nil => simp [objSet]
  | cons p rest ih =>
    obtain ⟨k', v'⟩ := p
    by_cases hk : k' = k
    · subst hk; simp [objGet] at h
    · simp [objGet, hk] at h
      simp [objSet, hk, ih h]

theorem mem_objSet (m : CompletedMap) (k : String) (v : Bool) (p : String × Bool)
    (hp : p ∈ objSet m k v) : p.1 = k ∨ p ∈ m := by
  induction m with
  | nil => simp [objSet] at hp; simp [hp]
  | cons q rest ih =>
    obtain ⟨ka, va⟩ := q
    by_cases hk : ka = k
    · subst hk
      simp only [objSet, if_pos rfl] at hp
      rcases List.mem_cons.mp hp with h | h
      · left; rw [h]
      · right; exact List.mem_cons_of_mem _ h
    · simp only [objSet, if_neg hk] at hp
      rcases List.mem_cons.mp hp with h | h
      · right; rw [h]; exact List.mem_cons_self _ _
      · rcases ih h with h' | h'
        · left; exact h'
        · right; exact List.mem_cons_of_mem _ h'

theorem trueKeys_append_false (m : CompletedMap) (k : String) :
    trueKeys (m ++ [(k, false)]) = trueKeys m := by
  simp [trueKeys, List.filter_append]

/-! ### Theorems: claims C2, C3, C5, C6, C8, C9, C10 -/

/-- Claim C2: when the active league's completion map contains at least one
`true` entry, both pair-count-change operations (the numeric input and the
stepper buttons, disabled in the view through `canEditPairCount`) are
rejected and leave the whole league state unchanged. -/
theorem C2_edit_lock_rejects_pairCount_change (prev : Leagues) (active : LeagueId)
    (v : ℚ) (delta : Int)
    (h : ∃ p ∈ (prev active).completedMap, p.2 = true) :
    pairCountInputEvent prev active v = prev
    ∧ stepperButtonEvent prev active delta = prev := by
  have hcc : canEditPairCount (prev active) = false := by
    obtain ⟨p, hp, hv⟩ := h
    have hmem : p ∈ (prev active).completedMap.filter (·.2) :=
      List.mem_filter.mpr ⟨hp, by simp [hv]⟩
    have hpos : 0 < (trueKeys (prev active).completedMap).length := by
      rw [trueKeys, List.length_map]
      exact List.length_pos_of_mem hmem
    rw [canEditPairCount, completedCount]
    simp only [beq_eq_false_iff_ne, ne_eq]
    omega
  constructor <;> simp [pairCountInputEvent, stepperButtonEvent, hcc]

/-- Witness for C2: a league with `"1-2"` completed rejects the change. -/
theorem C2_edit_lock_rejects_pairCount_change_witness :
    pairCountInputEvent
        (fun _ => { pairCount := 4, completedMap := [("1-2", true)] }) LeagueId.A 7
      = (fun _ => { pairCount := 4, completedMap := [("1-2", true)] }) :=
  (C2_edit_lock_rejects_pairCount_change _ LeagueId.A 7 1 ⟨("1-2", true), by decide, rfl⟩).1

/-- Counterexample to claim C3 as stated: the richer revision has no upper
clamp, so the absolute pair-count change with input `101` stores `101`, not
the claimed maximum `100`. -/
theorem C3_counterexample_no_upper_clamp :
    ((handlePairCountChangeUpdate (fun _ => defaultLeagueState) LeagueId.A 101)
        LeagueId.A).pairCount = 101
    ∧ ((handlePairCountChangeUpdate (fun _ => defaultLeagueState) LeagueId.A 101)
        LeagueId.A).pairCount ≠ 100 := by
  have h : ⌊(101 : ℚ)⌋ = 101 := by norm_num
  rw [handlePairCountChangeUpdate, Function.update_same, boundedPairCount, h]
  exact ⟨rfl, by decide⟩

/-- Claim C3 (amended): for every finite numeric input `v`, the pair-count
change clamps below at 2 (`v < 2` yields 2) and otherwise stores `⌊v⌋`
unchanged — there is no upper clamp in the code — and it is total
(no input errors). -/
theorem C3_pairCount_lower_clamp_only (prev : Leagues) (active : LeagueId) (v : ℚ) :
    (v < 2 → ((handlePairCountChangeUpdate prev active v) active).pairCount = 2)
    ∧ (2 ≤ v →
        (((handlePairCountChangeUpdate prev active v) active).pairCount : Int) = ⌊v⌋) := by
  rw [handlePairCountChangeUpdate, Function.update_same]
  constructor
  · intro h
    have hf : ⌊v⌋ < 2 := Int.floor_lt.mpr (by exact_mod_cast h)
    rw [boundedPairCount, max_eq_left (by omega)]
    rfl
  · intro h
    have hf : 2 ≤ ⌊v⌋ := Int.le_floor.mpr (by exact_mod_cast h)
    rw [boundedPairCount, max_eq_right hf, Int.toNat_of_nonneg (by omega)]

/-- Witness for C3 (amended) at `v = -5`: the stored count is the lower
bound 2. -/
theorem C3_pairCount_lower_clamp_only_witness :
    ((handlePairCountChangeUpdate (fun _ => defaultLeagueState) LeagueId.A (-5))
        LeagueId.A).pairCount = 2 :=
  (C3_pairCount_lower_clamp_only (fun _ => defaultLeagueState) LeagueId.A (-5)).1 (by norm_num)

theorem objGet_prune (n : Nat) (m : CompletedMap) (k : String) :
    objGet (pruneCompletedMap m n) k = if k ∈ matchIdsOf n then objGet m k else none := by
  induction m with
  | nil => simp [pruneCompletedMap, objGet]
  | cons p rest ih =>
    obtain ⟨k', v'⟩ := p
    rw [pruneCompletedMap] at ih ⊢
    by_cases hq : k' ∈ matchIdsOf n
    · by_cases hk : k' = k
      · subst hk
        simp [List.filter_cons, hq, objGet]
      · simp [List.filter_cons, hq, objGet, hk, ih]
    · by_cases hk : k' = k
      · subst hk
        simp [List.filter_cons, hq, objGet, ih]
      · simp [List.filter_cons, hq, objGet, hk, ih]

/-- Claim C5: pruning after a pair-count change keeps exactly the entries
whose key is an id of the current fixture set, with values unchanged, and
drops exactly the stale ones. -/
theorem C5_pruning_exact (n : Nat) (m : CompletedMap) :
    (∀ p : String × Bool, p ∈ pruneCompletedMap m n ↔ (p ∈ m ∧ p.1 ∈ matchIdsOf n))
    ∧ (∀ k, k ∈ matchIdsOf n → objGet (pruneCompletedMap m n) k = objGet m k)
    ∧ (∀ k, k ∉ matchIdsOf n → objGet (pruneCompletedMap m n) k = none) := by
  refine ⟨?_, ?_, ?_⟩
  · intro p
    simp [pruneCompletedMap, List.mem_filter]
  · intro k hk
    rw [objGet_prune, if_pos hk]
  · intro k hk
    rw [objGet_prune, if_neg hk]

/-- Witness for C5: at `n = 4`, the valid key `"1-2"` is retained with its
value and the stale key `"9-9"` is removed. -/
theorem C5_pruning_exact_witness :
    objGet (pruneCompletedMap [("1-2", true), ("9-9", true)] 4) "1-2"
        = objGet [("1-2", true), ("9-9", true)] "1-2"
    ∧ objGet (pruneCompletedMap [("1-2", true), ("9-9", true)] 4) "9-9" = none :=
  ⟨(C5_pruning_exact 4 [("1-2", true), ("9-9", true)]).2.1 "1-2" (by decide),
   (C5_pruning_exact 4 [("1-2", true), ("9-9", true)]).2.2 "9-9" (by decide)⟩

theorem loadRowsMerge_aux (n : Nat) (rows : List (String × Bool)) :
    ∀ acc : CompletedMap, (∀ p ∈ acc, p.1 ∈ matchIdsOf n) →
      ∀ p ∈ rows.foldl
        (fun acc row => if row.1 ∈ matchIdsOf n then objSet acc row.1 row.2 else acc) acc,
        p.1 ∈ matchIdsOf n := by
  induction rows with
  | nil => intro acc hacc p hp; exact hacc p hp
  | cons row rest ih =>
    intro acc hacc p hp
    rw [List.foldl_cons] at hp
    by_cases hr : row.1 ∈ matchIdsOf n
    · rw [if_pos hr] at hp
      refine ih (objSet acc row.1 row.2) ?_ p hp
      intro q hq
      rcases mem_objSet acc row.1 row.2 q hq with h | h
      · rw [h]; exact hr
      · exact hacc q h
    · rw [if_neg hr] at hp
      exact ih acc hacc p hp

/-- Claim C6: both remote-merge operations filter rows against the valid key
set recomputed from the generator for the current pair count — the bulk
loader only ever produces valid keys, and the subscription handler preserves
the invariant that every key of the completion map is a current match id. -/
theorem C6_remote_merge_filtered (n : Nat) :
    (∀ rows : List (String × Bool), ∀ p ∈ loadRowsMerge n rows, p.1 ∈ matchIdsOf n)
    ∧ (∀ (prev : CompletedMap) (row : String × Bool),
        (∀ p ∈ prev, p.1 ∈ matchIdsOf n) →
        ∀ p ∈ subscriptionMerge n prev row, p.1 ∈ matchIdsOf n) := by
  constructor
  · intro rows p hp
    exact loadRowsMerge_aux n rows [] (by simp) p hp
  · intro prev row hprev p hp
    rw [subscriptionMerge] at hp
    by_cases hr : row.1 ∈ matchIdsOf n
    · rw [if_pos hr] at hp
      rcases mem_objSet prev row.1 row.2 p hp with h | h
      · rw [h]; exact hr
      · exact hprev p h
    · rw [if_neg hr] at hp
      exact hprev p hp

/-- Witness for C6: an invalid row `"9-9"` delivered to the subscription
handler over an empty map leaves every remaining key valid. -/
theorem C6_remote_merge_filtered_witness :
    ∀ p ∈ subscriptionMerge 4 [] ("9-9", true), p.1 ∈ matchIdsOf 4 :=
  (C6_remote_merge_filtered 4).2 [] ("9-9", true) (by simp)

/-- Claim C8: every mutating operation applied to the active league (toggle,
league reset, pair-count change by value or by stepper delta) leaves any
other league's pair count and completion map unchanged. -/
theorem C8_league_isolation (prev : Leagues) (active other : LeagueId) (id : String)
    (v : ℚ) (delta : Int) (h : other ≠ active) :
    (handleToggleUpdate prev active id) other = prev other
    ∧ (handleResetLeagueUpdate prev active) other = prev other
    ∧ (handlePairCountChangeUpdate prev active v) other = prev other
    ∧ (handleStepperChangeUpdate prev active delta) other = prev other := by
  refine ⟨?_, ?_, ?_, ?_⟩ <;>
    simp [handleToggleUpdate, handleResetLeagueUpdate, handlePairCountChangeUpdate,
      handleStepperChangeUpdate, Function.update_noteq h]

/-- Witness for C8: a toggle applied to league A leaves league B unchanged. -/
theorem C8_league_isolation_witness :
    (handleToggleUpdate (fun _ => defaultLeagueState) LeagueId.A "1-2") LeagueId.B
      = (fun _ : LeagueId => defaultLeagueState) LeagueId.B :=
  (C8_league_isolation (fun _ => defaultLeagueState) LeagueId.A LeagueId.B "1-2" 7 1
    (by decide)).1

theorem toggleMap_twice_trueKeys (m : CompletedMap) (id : String) :
    trueKeys (toggleMap (toggleMap m id) id) = trueKeys m := by
  have h1 : objGetD (toggleMap m id) id = !objGetD m id := by
    simp [toggleMap, objGetD, objGet_objSet_same]
  rw [toggleMap, h1, Bool.not_not, toggleMap, objSet_objSet]
  cases h : objGet m id with
  | none =>
    rw [objGetD, h, Option.getD_none, objSet_of_get_none m id false h, trueKeys_append_false]
  | some bv =>
    rw [objGetD, h, Option.getD_some, objSet_eq_self m id bv h]

/-- Claim C9: toggling a match key twice restores the set of keys whose
completion value is `true` exactly; a single toggle flips the completion
status of that key and changes no other key's status. -/
theorem C9_toggle_twice_restores_trueKeys (m : CompletedMap) (id : String) :
    (trueKeys (toggleMap (toggleMap m id) id)).toFinset = (trueKeys m).toFinset
    ∧ objGetD (toggleMap m id) id = !objGetD m id
    ∧ ∀ k, k ≠ id → objGetD (toggleMap m id) k = objGetD m k := by
  refine ⟨by rw [toggleMap_twice_trueKeys], ?_, ?_⟩
  · simp [toggleMap, objGetD, objGet_objSet_same]
  · intro k hk
    simp [toggleMap, objGetD, objGet_objSet_ne m id k _ hk]

/-- Witness for C9: toggling `"1-2"` does not change the status of `"1-3"`. -/
theorem C9_toggle_twice_restores_trueKeys_witness :
    objGetD (toggleMap [("1-2", true)] "1-2") "1-3" = objGetD [("1-2", true)] "1-3" :=
  (C9_toggle_twice_restores_trueKeys [("1-2", true)] "1-2").2.2 "1-3" (by decide)

theorem nodup_matchIdsOf (n : Nat) : (matchIdsOf n).Nodup :=
  nodup_ids_generateMatches n

theorem trueKeys_nodup (m : CompletedMap) (h : (m.map Prod.fst).Nodup) :
    (trueKeys m).Nodup := by
  rw [trueKeys]
  exact h.sublist (List.Sublist.map Prod.fst (List.filter_sublist m))

theorem trueKeys_length_le (n : Nat) (m : CompletedMap)
    (hnd : (m.map Prod.fst).Nodup)
    (hsub : ∀ k ∈ trueKeys m, k ∈ matchIdsOf n) :
    (trueKeys m).length ≤ (generateMatches n).length := by
  have h1 : (trueKeys m).toFinset ⊆ (matchIdsOf n).toFinset := by
    intro k hk
    rw [List.mem_toFinset] at hk ⊢
    exact hsub k hk
  have h2 := Finset.card_le_card h1
  rw [List.toFinset_card_of_nodup (trueKeys_nodup m hnd),
    List.toFinset_card_of_nodup (nodup_matchIdsOf n)] at h2
  simpa [matchIdsOf] using h2

/-- Claim C10: the progress percentage is total — 0 when the fixture set is
empty, otherwise exactly `Math.round(completedCount/totalMatches*100)` —
and it lies between 0 and 100 whenever the completion map's true keys are a
subset of the current fixture ids (keys of a JS object are unique). -/
theorem C10_progress_defined_and_bounded (n : Nat) (m : CompletedMap)
    (hnd : (m.map Prod.fst).Nodup)
    (hsub : ∀ k ∈ trueKeys m, k ∈ matchIdsOf n) :
    ((generateMatches n).length = 0 → progressPercent n m = 0)
    ∧ (0 < (generateMatches n).length →
        progressPercent n m
          = jsRound (((trueKeys m).length : ℚ) / ((generateMatches n).length : ℚ) * 100))
    ∧ 0 ≤ progressPercent n m ∧ progressPercent n m ≤ 100 := by
  have hle := trueKeys_length_le n m hnd hsub
  by_cases h0 : (generateMatches n).length = 0
  · refine ⟨fun _ => by rw [progressPercent, if_pos h0], fun hpos => absurd h0 (by omega),
      ?_, ?_⟩
    · rw [progressPercent, if_pos h0]
    · rw [progressPercent, if_pos h0]; norm_num
  · have hq0 : (0 : ℚ) ≤ ((trueKeys m).length : ℚ) / ((generateMatches n).length : ℚ) * 100 := by
      positivity
    have hq100 : ((trueKeys m).length : ℚ) / ((generateMatches n).length : ℚ) * 100 ≤ 100 := by
      have hT : (0 : ℚ) < ((generateMatches n).length : ℚ) := by
        exact_mod_cast Nat.pos_of_ne_zero h0
      have hdiv : ((trueKeys m).length : ℚ) / ((generateMatches n).length : ℚ) ≤ 1 := by
        rw [div_le_one hT]
        exact_mod_cast hle
      calc ((trueKeys m).length : ℚ) / ((generateMatches n).length : ℚ) * 100
          ≤ 1 * 100 := mul_le_mul_of_nonneg_right hdiv (by norm_num)
        _ = 100 := by norm_num
    refine ⟨fun h => absurd h h0, fun _ => by rw [progressPercent, if_neg h0], ?_, ?_⟩
    · rw [progressPercent, if_neg h0, jsRound]
      have hnn : (0 : ℚ) ≤ ((trueKeys m).length : ℚ) / ((generateMatches n).length : ℚ) * 100
          + 1/2 := by
        linarith
      exact Int.le_floor.mpr (by exact_mod_cast hnn)
    · rw [progressPercent, if_neg h0, jsRound]
      have hlt : ((trueKeys m).length : ℚ) / ((generateMatches n).length : ℚ) * 100 + 1/2
          < ((101 : Int) : ℚ) := by
        push_cast
        linarith
      have := Int.floor_lt.mpr hlt
      omega

/-- Witness for C10 at `n = 4` with `"2-3"` completed. -/
theorem C10_progress_defined_and_bounded_witness :
    0 ≤ progressPercent 4 [("2-3", true)] ∧ progressPercent 4 [("2-3", true)] ≤ 100 :=
  ⟨(C10_progress_defined_and_bounded 4 [("2-3", true)] (by decide) (by decide)).2.2.1,
   (C10_progress_defined_and_bounded 4 [("2-3", true)] (by decide) (by decide)).2.2.2⟩

/-! ### Theorems: claim C7 -/

/-- Counterexample to claim C7 as stated: for league `A`, a missing
per-league value does not give the default when a valid legacy value is
present — the migrated legacy pair count (here 6) is returned instead of
the default 4. -/
theorem C7_counterexample_legacy_migration :
    (loadLeagueState LeagueId.A StoredSlot.missing
        (StoredSlot.val (Js.obj
          [("pairCount", Js.num 6), ("completedIds", Js.arr [Js.str "1-2"])]))).pairCount = 6
    ∧ defaultLoadedState.pairCount = 4 :=
  ⟨rfl, rfl⟩

/-- Claim C7 (amended): loading never throws (the loader is total), and a
missing, unparseable, falsy, or non-numeric-`pairCount` stored value gives
the default state (`pairCount = 4`, empty completion map) — except that for
league `A` a missing per-league value with a valid legacy value present
returns the migrated legacy state instead. -/
theorem C7_load_defaults_except_legacy (leagueId : LeagueId) (slot legacySlot : StoredSlot) :
    (slot = .corrupt → loadLeagueState leagueId slot legacySlot = defaultLoadedState)
    ∧ (∀ j, slot = .val j → (j.truthy = false ∨ isNumField j "pairCount" = false) →
        loadLeagueState leagueId slot legacySlot = defaultLoadedState)
    ∧ (slot = .missing → leagueId ≠ .A →
        loadLeagueState leagueId slot legacySlot = defaultLoadedState)
    ∧ (slot = .missing → loadLegacyState legacySlot = none →
        loadLeagueState leagueId slot legacySlot = defaultLoadedState)
    ∧ (∀ legacy, slot = .missing → leagueId = .A → loadLegacyState legacySlot = some legacy →
        loadLeagueState leagueId slot legacySlot = migrateLegacy legacy) := by
  refine ⟨?_, ?_, ?_, ?_, ?_⟩
  · rintro rfl
    rfl
  · rintro j rfl hbad
    rcases hbad with hf | hnum
    · simp [loadLeagueState, hf]
    · rw [loadLeagueState]
      by_cases ht : j.truthy = false
      · simp [ht]
      · rw [if_neg ht]
        rw [isNumField] at hnum
        rcases hg : j.getField "pairCount" with _ | jv
        · simp [hg]
        · cases jv <;> simp_all [hg]
  · rintro rfl hA
    rw [loadLeagueState, if_neg hA]
  · rintro rfl hnone
    rw [loadLeagueState]
    by_cases hA : leagueId = .A
    · simp [hA, hnone]
    · simp [hA]
  · rintro legacy rfl hA hsome
    subst hA
    simp [loadLeagueState, hsome]

/-- Witness for C7 (amended): an unparseable slot for league `B` loads the
default state. -/
theorem C7_load_defaults_except_legacy_witness :
    loadLeagueState LeagueId.B StoredSlot.corrupt StoredSlot.missing = defaultLoadedState :=
  (C7_load_defaults_except_legacy LeagueId.B StoredSlot.corrupt StoredSlot.missing).1 rfl

/-! ### Theorems: circle-method variant (claim C4) -/

theorem circleMatches_example_even :
    (circleMatches 4).map Match.id = ["1-4", "2-3", "1-3", "2-4", "1-2", "3-4"] := by
  decide

theorem circleMatches_example_small :
    circleMatches 0 = [] ∧ circleMatches 1 = [] ∧ (circleMatches 5).length = 10 := by
  refine ⟨by decide, by decide, by decide⟩

theorem drop_length_pred (l : List Nat) (h : l ≠ []) :
    l.drop (l.length - 1) = [l.getLast h] := by
  induction l with
  | nil => exact absurd rfl h
  | cons a t ih =>
    cases t with
    | nil => simp
    | cons b t' =>
      rw [List.getLast_cons (by simp)]
      have : (a :: b :: t').length - 1 = (b :: t').length := by simp
      rw [this]
      rw [show ((b :: t').length = (b :: t').length - 1 + 1) by simp]
      rw [List.drop_succ_cons]
      exact ih (by simp)

theorem rotateOnce_eq_rotate (l : List Nat) : rotateOnce l = l.rotate (l.length - 1) := by
  rcases eq_or_ne l [] with rfl | h
  · simp [rotateOnce]
  · rw [rotateOnce, List.getLast?_eq_getLast l h]
    rw [List.rotate_eq_drop_append_take (by omega)]
    rw [drop_length_pred l h, List.dropLast_eq_take]
    rfl

theorem advanceSeats_iterate (m : Nat) (hm : 1 ≤ m) (r : Nat) :
    advanceSeats^[r] (List.range' 1 m)
      = 1 :: (List.range' 2 (m - 1)).rotate ((m - 2) * r) := by
  induction r with
  | zero =>
    obtain ⟨k, rfl⟩ : ∃ k, m = k + 1 := ⟨m - 1, by omega⟩
    simp [List.range'_succ]
  | succ r ih =>
    rw [Function.iterate_succ_apply', ih]
    rw [advanceSeats, rotateOnce_eq_rotate, List.rotate_rotate, List.length_rotate,
      List.length_range']
    have harith : (m - 2) * r + (m - 1 - 1) = (m - 2) * (r + 1) := by
      have h1 : m - 1 - 1 = m - 2 := by omega
      rw [h1, Nat.mul_succ]
    rw [harith]

theorem seats_getD (m : Nat) (hm : 2 ≤ m) (r k : Nat) (hk : k < m) :
    (advanceSeats^[r] (List.range' 1 m)).getD k 0 = seatVal m r k := by
  rw [advanceSeats_iterate m (by omega) r]
  cases k with
  | zero => simp [seatVal]
  | succ k =>
    rw [seatVal, if_neg (by omega), List.getD_cons_succ]
    have hlen : ((List.range' 2 (m - 1)).rotate ((m - 2) * r)).length = m - 1 := by
      rw [List.length_rotate, List.length_range']
    rw [List.getD_eq_getElem _ _ (by omega), List.getElem_rotate]
    rw [List.getElem_range'_1]
    rw [List.length_range']
    simp

theorem seats_length (m : Nat) (hm : 1 ≤ m) (r : Nat) :
    (advanceSeats^[r] (List.range' 1 m)).length = m := by
  rw [advanceSeats_iterate m hm r]
  simp only [List.length_cons, List.length_rotate, List.length_range']
  omega

theorem roundPairs_closed (m : Nat) (hm : 2 ≤ m) (r : Nat) :
    roundPairs (advanceSeats^[r] (List.range' 1 m)) = (List.range (m / 2)).map (pairAt m r) := by
  rw [roundPairs, seats_length m (by omega) r]
  refine List.map_congr_left ?_
  intro i hi
  rw [List.mem_range] at hi
  rw [pairAt, seats_getD m hm r i (by omega), seats_getD m hm r (m - 1 - i) (by omega)]

theorem roundsFrom_eq_map (seats : List Nat) (k : Nat) :
    roundsFrom seats k = (List.range k).map fun r => roundPairs (advanceSeats^[r] seats) := by
  induction k generalizing seats with
  | zero => simp [roundsFrom]
  | succ k ih =>
    rw [roundsFrom, ih (advanceSeats seats), List.range_succ_eq_map]
    rw [List.map_cons, List.map_map]
    refine congrArg₂ List.cons (by simp) ?_
    refine List.map_congr_left fun r _ => ?_
    simp [Function.iterate_succ_apply]

theorem mem_evenCircle (m : Nat) (hm : 2 ≤ m) (p : Nat × Nat) :
    p ∈ evenCircle m ↔ ∃ r < m - 1, ∃ i < m / 2, p = pairAt m r i := by
  rw [evenCircle, roundsFrom_eq_map, List.mem_flatten]
  constructor
  · rintro ⟨l, hl, hp⟩
    rw [List.mem_map] at hl
    obtain ⟨r, hr, rfl⟩ := hl
    rw [List.mem_range] at hr
    rw [roundPairs_closed m hm r, List.mem_map] at hp
    obtain ⟨i, hi, rfl⟩ := hp
    rw [List.mem_range] at hi
    exact ⟨r, hr, i, hi, rfl⟩
  · rintro ⟨r, hr, i, hi, rfl⟩
    refine ⟨roundPairs (advanceSeats^[r] (List.range' 1 m)), ?_, ?_⟩
    · rw [List.mem_map]
      exact ⟨r, List.mem_range.mpr hr, rfl⟩
    · rw [roundPairs_closed m hm r, List.mem_map]
      exact ⟨i, List.mem_range.mpr hi, rfl⟩

theorem length_evenCircle (m : Nat) (hm : 2 ≤ m) :
    (evenCircle m).length = (m - 1) * (m / 2) := by
  rw [evenCircle, roundsFrom_eq_map, List.length_flatten, List.map_map]
  have hconst : (List.length ∘ fun r => roundPairs (advanceSeats^[r] (List.range' 1 m)))
      = fun _ => m / 2 := by
    funext r
    simp [roundPairs_closed m hm r, List.length_map, List.length_range]
  rw [hconst]
  rw [List.map_const', List.length_range, List.sum_replicate, smul_eq_mul]

theorem seatVal_bounds (m : Nat) (hm : 2 ≤ m) (r k : Nat) :
    1 ≤ seatVal m r k ∧ seatVal m r k ≤ m := by
  rw [seatVal]
  split
  · omega
  · have := Nat.mod_lt (k - 1 + (m - 2) * r) (y := m - 1) (by omega)
    omega

theorem seatVal_injOn (m : Nat) (hm : 2 ≤ m) (r : Nat) {k k' : Nat}
    (hk : k < m) (hk' : k' < m) (h : seatVal m r k = seatVal m r k') : k = k' := by
  rw [seatVal, seatVal] at h
  rcases Nat.eq_zero_or_pos k with rfl | hk0 <;> rcases Nat.eq_zero_or_pos k' with rfl | hk0'
  · rfl
  · rw [if_pos rfl, if_neg (by omega)] at h
    omega
  · rw [if_neg (by omega), if_pos rfl] at h
    omega
  · rw [if_neg (by omega), if_neg (by omega)] at h
    have h2 : (k - 1 + (m - 2) * r) % (m - 1) = (k' - 1 + (m - 2) * r) % (m - 1) := by omega
    have hmod :=
      Nat.ModEq.add_right_cancel' ((m - 2) * r)
        (show Nat.ModEq (m - 1) (k - 1 + (m - 2) * r) (k' - 1 + (m - 2) * r) from h2)
    have h3 : (k - 1) % (m - 1) = (k' - 1) % (m - 1) := hmod
    rw [Nat.mod_eq_of_lt (by omega), Nat.mod_eq_of_lt (by omega)] at h3
    omega

theorem np_pairAt_valid (m : Nat) (hm : 2 ≤ m) (hme : m % 2 = 0) (r i : Nat) (hi : i < m / 2) :
    1 ≤ (np (pairAt m r i)).1 ∧ (np (pairAt m r i)).1 < (np (pairAt m r i)).2
      ∧ (np (pairAt m r i)).2 ≤ m := by
  obtain ⟨h1a, h1b⟩ := seatVal_bounds m hm r i
  obtain ⟨h2a, h2b⟩ := seatVal_bounds m hm r (m - 1 - i)
  have hii : i ≠ m - 1 - i := by omega
  have hne : seatVal m r i ≠ seatVal m r (m - 1 - i) := by
    intro h
    exact hii (seatVal_injOn m hm r (by omega) (by omega) h)
  rw [np, pairAt]
  rcases Nat.lt_or_ge (seatVal m r i) (seatVal m r (m - 1 - i)) with h | h
  · rw [min_eq_left h.le, max_eq_right h.le]
    exact ⟨h1a, h, h2b⟩
  · have h' : seatVal m r (m - 1 - i) < seatVal m r i := by omega
    rw [min_eq_right h'.le, max_eq_left h'.le]
    exact ⟨h2a, h', h1b⟩

theorem coverage_anchor (m : Nat) (hm : 2 ≤ m) (b : Nat) (hb : 2 ≤ b) (hbm : b ≤ m) :
    pairAt m (m - b) 0 = (1, b) := by
  rw [pairAt, seatVal, if_pos rfl, seatVal, if_neg (by omega)]
  obtain ⟨c, rfl⟩ : ∃ c, m = b + c := ⟨m - b, by omega⟩
  obtain ⟨d, rfl⟩ : ∃ d, b = d + 2 := ⟨b - 2, by omega⟩
  have e1 : d + 2 + c - 1 - 0 - 1 = c + d := by omega
  have e2 : d + 2 + c - 2 = c + d := by omega
  have e3 : d + 2 + c - (d + 2) = c := by omega
  have e4 : d + 2 + c - 1 = c + d + 1 := by omega
  rw [e1, e2, e3, e4]
  have key : c + d + (c + d) * c = d + (c + d + 1) * c := by ring
  rw [key, Nat.add_mul_mod_self_left, Nat.mod_eq_of_lt (by omega)]
  norm_num [Nat.add_comm]

theorem seatVal_at_position (m : Nat) (hm : 2 ≤ m) (r x : Nat) (hx : 2 ≤ x) (hxm : x ≤ m) :
    seatVal m r ((x - 2 + r) % (m - 1) + 1) = x := by
  rw [seatVal, if_neg (by omega)]
  have e1 : (x - 2 + r) % (m - 1) + 1 - 1 = (x - 2 + r) % (m - 1) := by omega
  rw [e1, Nat.mod_add_mod]
  have e2 : x - 2 + r + (m - 2) * r = x - 2 + (m - 1) * r := by
    have h1 : m - 1 = m - 2 + 1 := by omega
    rw [h1, Nat.succ_mul]
    omega
  rw [e2, Nat.add_mul_mod_self_left, Nat.mod_eq_of_lt (by omega)]
  omega

theorem coverage_rest (m : Nat) (hm4 : 4 ≤ m) (hme : m % 2 = 0) (a b : Nat)
    (ha : 2 ≤ a) (hab : a < b) (hbm : b ≤ m) :
    ∃ r < m - 1, ∃ i < m / 2, np (pairAt m r i) = (a, b) := by
  set s := m - 1 with hs
  have hsodd : s % 2 = 1 := by omega
  have hs3 : 3 ≤ s := by omega
  set X := 2 * s + 2 - a - b with hX
  set r := ((s + 1) / 2 * X) % s with hr
  have hrlt : r < s := Nat.mod_lt _ (by omega)
  have hA : (2 * r) % s = X % s := by
    have h1 : (2 * (((s + 1) / 2 * X) % s)) % s = (2 * ((s + 1) / 2 * X)) % s := by
      conv_lhs => rw [Nat.mul_mod]
      conv_rhs => rw [Nat.mul_mod]
      rw [Nat.mod_mod_of_dvd _ (dvd_refl s)]
    have h2 : 2 * ((s + 1) / 2 * X) = (s + 1) * X := by
      rw [← Nat.mul_assoc]
      congr 1
      omega
    rw [hr, h1, h2, show (s + 1) * X = X + s * X by ring, Nat.add_mul_mod_self_left]
  set pa := (a - 2 + r) % s with hpa
  set pb := (b - 2 + r) % s with hpb
  have hpalt : pa < s := Nat.mod_lt _ (by omega)
  have hpblt : pb < s := Nat.mod_lt _ (by omega)
  have hne : pa ≠ pb := by
    intro h
    rw [hpa, hpb] at h
    have hmod := Nat.ModEq.add_right_cancel' r
      (show Nat.ModEq s (a - 2 + r) (b - 2 + r) from h)
    have h3 : (a - 2) % s = (b - 2) % s := hmod
    rw [Nat.mod_eq_of_lt (by omega), Nat.mod_eq_of_lt (by omega)] at h3
    omega
  have hsummod : (pa + pb) % s = s - 2 := by
    rw [hpa, hpb, ← Nat.add_mod]
    rw [show a - 2 + r + (b - 2 + r) = a + b - 4 + 2 * r by omega]
    rw [← Nat.add_mod_mod, hA, Nat.add_mod_mod]
    rw [show a + b - 4 + X = s - 2 + s * 1 by omega]
    rw [Nat.add_mul_mod_self_left, Nat.mod_eq_of_lt (by omega)]
  have hsum : pa + pb = s - 2 := by
    rcases Nat.lt_or_ge (pa + pb) s with h | h
    · rw [Nat.mod_eq_of_lt h] at hsummod
      exact hsummod
    · rw [Nat.mod_eq_sub_mod h, Nat.mod_eq_of_lt (by omega)] at hsummod
      omega
  have hva : seatVal m r (pa + 1) = a := by
    rw [hpa, hs]
    exact seatVal_at_position m (by omega) r a ha (by omega)
  have hvb : seatVal m r (pb + 1) = b := by
    rw [hpb, hs]
    exact seatVal_at_position m (by omega) r b (by omega) hbm
  have hqa : min pa pb ≤ pa := min_le_left _ _
  have hqb : min pa pb ≤ pb := min_le_right _ _
  have hminmax : min pa pb + max pa pb = pa + pb := min_add_max pa pb
  have h2q : 2 * min pa pb ≤ s - 2 := by omega
  have hparity : 2 * min pa pb ≠ s - 2 := by omega
  have hilt : min pa pb + 1 < m / 2 := by omega
  have hmaxseat : m - 1 - (min pa pb + 1) = max pa pb + 1 := by omega
  refine ⟨r, by omega, min pa pb + 1, hilt, ?_⟩
  rw [pairAt, hmaxseat]
  rcases le_total pa pb with hle | hle
  · rw [min_eq_left hle, max_eq_right hle, hva, hvb, np]
    simp only
    rw [min_eq_left (Nat.le_of_lt hab), max_eq_right (Nat.le_of_lt hab)]
  · rw [min_eq_right hle, max_eq_left hle, hvb, hva, np]
    simp only
    rw [min_eq_right (Nat.le_of_lt hab), max_eq_left (Nat.le_of_lt hab)]

theorem mem_combPairs (m : Nat) (q : Nat × Nat) :
    q ∈ (generateMatches m).map combPair ↔ 1 ≤ q.1 ∧ q.1 < q.2 ∧ q.2 ≤ m := by
  rw [List.mem_map]
  constructor
  · rintro ⟨x, hx, rfl⟩
    rw [mem_generateMatches] at hx
    obtain ⟨i, j, h1, h2, h3, rfl⟩ := hx
    exact ⟨h1, h2, h3⟩
  · rintro ⟨h1, h2, h3⟩
    refine ⟨⟨matchKey q.1 q.2, q.1, q.2⟩, ?_, by simp [combPair]⟩
    rw [mem_generateMatches]
    exact ⟨q.1, q.2, h1, h2, h3, rfl⟩

theorem nodup_combPairs (m : Nat) : ((generateMatches m).map combPair).Nodup := by
  refine List.Nodup.map_on ?_ (nodup_generateMatches m)
  intro x hx y hy hxy
  rw [mem_generateMatches] at hx hy
  obtain ⟨i, j, _, _, _, rfl⟩ := hx
  obtain ⟨i', j', _, _, _, rfl⟩ := hy
  simp only [combPair, Prod.mk.injEq] at hxy
  obtain ⟨rfl, rfl⟩ := hxy
  rfl

theorem length_combPairs (m : Nat) :
    ((generateMatches m).map combPair).length = m * (m - 1) / 2 := by
  rw [List.length_map, length_generateMatches]

theorem evenCircle_np_toFinset (m : Nat) (hm : 2 ≤ m) (hme : m % 2 = 0) :
    ((evenCircle m).map np).toFinset = ((generateMatches m).map combPair).toFinset := by
  apply Finset.Subset.antisymm
  · intro q hq
    rw [List.mem_toFinset, List.mem_map] at hq
    obtain ⟨p, hp, rfl⟩ := hq
    rw [mem_evenCircle m hm] at hp
    obtain ⟨r, hr, i, hi, rfl⟩ := hp
    rw [List.mem_toFinset, mem_combPairs]
    exact np_pairAt_valid m hm hme r i hi
  · intro q hq
    rw [List.mem_toFinset, mem_combPairs] at hq
    obtain ⟨h1, h2, h3⟩ := hq
    rw [List.mem_toFinset, List.mem_map]
    rcases Nat.lt_or_ge q.1 2 with hq1 | hq1
    · have hq1' : q.1 = 1 := by omega
      refine ⟨pairAt m (m - q.2) 0, ?_, ?_⟩
      · rw [mem_evenCircle m hm]
        exact ⟨m - q.2, by omega, 0, by omega, rfl⟩
      · rw [coverage_anchor m hm q.2 (by omega) h3]
        have hnp : np (1, q.2) = (1, q.2) := by
          rw [np]
          simp only
          rw [min_eq_left (by omega), max_eq_right (by omega)]
        rw [hnp, ← hq1']
    · obtain ⟨r, hr, i, hi, hpair⟩ :=
        coverage_rest m (by omega) hme q.1 q.2 hq1 h2 h3
      refine ⟨pairAt m r i, (mem_evenCircle m hm _).mpr ⟨r, hr, i, hi, rfl⟩, ?_⟩
      rw [hpair]

theorem length_np_evenCircle (m : Nat) (hm : 2 ≤ m) (hme : m % 2 = 0) :
    ((evenCircle m).map np).length = m * (m - 1) / 2 := by
  rw [List.length_map, length_evenCircle m hm]
  obtain ⟨t, rfl⟩ : ∃ t, m = 2 * t := ⟨m / 2, by omega⟩
  rw [Nat.mul_div_cancel_left t (by norm_num : 0 < 2), Nat.mul_assoc,
    Nat.mul_div_cancel_left _ (by norm_num : 0 < 2)]
  exact Nat.mul_comm _ _

theorem nodup_np_evenCircle (m : Nat) (hm : 2 ≤ m) (hme : m % 2 = 0) :
    ((evenCircle m).map np).Nodup := by
  have hcard : ((evenCircle m).map np).toFinset.card = ((evenCircle m).map np).length := by
    rw [evenCircle_np_toFinset m hm hme, List.toFinset_card_of_nodup (nodup_combPairs m),
      length_combPairs, length_np_evenCircle m hm hme]
  rw [List.card_toFinset] at hcard
  have heq := List.Sublist.eq_of_length (List.dedup_sublist ((evenCircle m).map np)) hcard
  exact List.dedup_eq_self.mp heq

theorem np_evenCircle_perm (m : Nat) (hm : 2 ≤ m) (hme : m % 2 = 0) :
    ((evenCircle m).map np).Perm ((generateMatches m).map combPair) :=
  List.perm_of_nodup_nodup_toFinset_eq (nodup_np_evenCircle m hm hme) (nodup_combPairs m)
    (evenCircle_np_toFinset m hm hme)

theorem circleKept_np_perm (n : Nat) (hn : 2 ≤ n) :
    ((circleKept n).map np).Perm ((generateMatches n).map combPair) := by
  rcases Nat.even_or_odd n with he | ho
  · have hne : n % 2 = 0 := Nat.even_iff.mp he
    have hsz : circleSize n = n := by rw [circleSize, if_neg (by omega)]
    have hbye : circleBye n = 0 := by rw [circleBye, if_neg (by omega)]
    have hkept : circleKept n = evenCircle n := by
      rw [circleKept, hsz, hbye]
      refine List.filter_eq_self.mpr ?_
      intro p hp
      rw [mem_evenCircle n hn] at hp
      obtain ⟨r, hr, i, hi, rfl⟩ := hp
      have h1 := (seatVal_bounds n hn r i).1
      have h2 := (seatVal_bounds n hn r (n - 1 - i)).1
      rw [pairAt]
      simp only [decide_eq_true_eq]
      omega
    rw [hkept]
    exact np_evenCircle_perm n hn hne
  · have hno : n % 2 = 1 := Nat.odd_iff.mp ho
    have hm2 : 2 ≤ n + 1 := by omega
    have hme : (n + 1) % 2 = 0 := by omega
    have hsz : circleSize n = n + 1 := by rw [circleSize, if_pos hno]
    have hbye : circleBye n = n + 1 := by rw [circleBye, if_pos hno]
    have hcomm :
        (circleKept n).map np
          = ((evenCircle (n + 1)).map np).filter
              fun q => decide (q.1 ≠ n + 1 ∧ q.2 ≠ n + 1) := by
      rw [circleKept, hsz, hbye, List.filter_map]
      refine congrArg (List.map np) ?_
      refine List.filter_congr ?_
      intro p _
      simp only [Function.comp_apply, np, decide_eq_decide]
      constructor <;> intro h <;> omega
    rw [hcomm]
    have hnodup : (((evenCircle (n + 1)).map np).filter
        fun q => decide (q.1 ≠ n + 1 ∧ q.2 ≠ n + 1)).Nodup :=
      (nodup_np_evenCircle (n + 1) hm2 hme).filter _
    refine List.perm_of_nodup_nodup_toFinset_eq hnodup (nodup_combPairs n) ?_
    rw [List.toFinset_filter, evenCircle_np_toFinset (n + 1) hm2 hme]
    ext q
    rw [Finset.mem_filter, List.mem_toFinset, List.mem_toFinset, mem_combPairs, mem_combPairs]
    simp only [decide_eq_true_eq]
    constructor
    · rintro ⟨⟨h1, h2, h3⟩, h4, h5⟩
      exact ⟨h1, h2, by omega⟩
    · rintro ⟨h1, h2, h3⟩
      exact ⟨⟨h1, h2, by omega⟩, by omega, by omega⟩

theorem circleMatches_map_combPair (n : Nat) :
    (circleMatches n).map combPair = (circleKept n).map np := by
  rw [circleMatches, List.map_map]
  rfl

theorem comb_ids_eq (n : Nat) :
    (generateMatches n).map Match.id
      = ((generateMatches n).map combPair).map fun q => matchKey q.1 q.2 := by
  rw [List.map_map]
  refine List.map_congr_left ?_
  intro x hx
  rw [mem_generateMatches] at hx
  obtain ⟨i, j, _, _, _, rfl⟩ := hx
  rfl

theorem circle_ids_eq (n : Nat) :
    (circleMatches n).map Match.id
      = ((circleKept n).map np).map fun q => matchKey q.1 q.2 := by
  rw [circleMatches, List.map_map, List.map_map]
  rfl

/-- Claim C4: for every `n ≥ 2` the spec-modelled circle-method variant
emits the same multiset of participant pairs as the combinatorial variant
(a permutation of pair lists), every emitted match is keyed
`"{min(a,b)}-{max(a,b)}"` regardless of seat order, the key list is a
permutation of the combinatorial key list with each unique key appearing
exactly once, and the two variants' key sets are identical. -/
theorem C4_circle_equals_combinatorial (n : Nat) (hn : 2 ≤ n) :
    ((circleMatches n).map combPair).Perm ((generateMatches n).map combPair)
    ∧ (∀ x ∈ circleMatches n, x.pairA ≤ x.pairB ∧ x.id = matchKey x.pairA x.pairB)
    ∧ ((circleMatches n).map Match.id).Perm ((generateMatches n).map Match.id)
    ∧ ((circleMatches n).map Match.id).Nodup
    ∧ ((circleMatches n).map Match.id).toFinset
        = ((generateMatches n).map Match.id).toFinset := by
  have hpairs : ((circleMatches n).map combPair).Perm ((generateMatches n).map combPair) := by
    rw [circleMatches_map_combPair]
    exact circleKept_np_perm n hn
  have hids : ((circleMatches n).map Match.id).Perm ((generateMatches n).map Match.id) := by
    rw [circle_ids_eq, comb_ids_eq]
    exact (circleKept_np_perm n hn).map _
  have htf : ((circleMatches n).map Match.id).toFinset
      = ((generateMatches n).map Match.id).toFinset := by
    ext k
    rw [List.mem_toFinset, List.mem_toFinset]
    exact hids.mem_iff
  refine ⟨hpairs, ?_, hids, hids.nodup_iff.mpr (nodup_ids_generateMatches n), htf⟩
  intro x hx
  rw [circleMatches, List.mem_map] at hx
  obtain ⟨p, hp, rfl⟩ := hx
  exact ⟨min_le_max, rfl⟩

/-- Witness for C4 at the spec's own example `n = 5` (odd, bye case). -/
theorem C4_circle_equals_combinatorial_witness :
    ((circleMatches 5).map Match.id).toFinset = ((generateMatches 5).map Match.id).toFinset :=
  (C4_circle_equals_combinatorial 5 (by decide)).2.2.2.2
